import Mathlib

/-!
Verification of the metriqs metrics-agent core.

The Rust source is shallowly embedded: `SystemTime` becomes `Nat` (a totally
ordered instant), `i32` becomes `Int` with the source's wrapping arithmetic —
the release-mode overflow of the Count fold and the truncating `as i32`
length cast — modelled explicitly by `wrapI32`, reduction into the i32
two's-complement range; `string_cache::DefaultAtom` becomes `String`, and
`HashMap`/`Vec` become association lists / `List`.
-/

namespace Metriqs

/-- Interned metric-name strings (string_cache::DefaultAtom). -/
abbrev Atom := String

/-- A key/value dimension pair (src/metric.rs: `type Dimension = (Atom, Atom)`). -/
abbrev Dimension := Atom × Atom

/-- A metric identifier (src/metric.rs: `type Id = (Atom, Vec<Dimension>)`). -/
abbrev Id := Atom × List Dimension

/-- Metric values (`i32` in the source, modelled as unbounded `Int`). -/
abbrev Value := Int

/-- Event timestamps (`std::time::SystemTime`, a totally ordered instant). -/
abbrev Time := Nat

/-- Reduction of an integer into the i32 range, two's complement: the result
is congruent mod 4294967296 = 2^32 and lies in [-2147483648, 2147483648).
This models Rust's release-mode wrapping `i32` addition (`memo + value` in
the Count fold of src/db/aggregate.rs; a debug build would panic instead)
and the truncating `values.len() as i32` cast. Written with decimal
literals so that kernel evaluation (`decide`) and `omega` handle it
directly. -/
def wrapI32 (z : Int) : Int :=
  (z + 2147483648) % 4294967296 - 2147483648

/-- Grouping key from src/db/aggregate.rs: `enum Group`. -/
inductive Group where
  | count (id : Id)
  | gauge (id : Id)
  | histogram (id : Id)
deriving DecidableEq

/-- The grouped metrics `HashMap<Group, Vec<(SystemTime, i32)>>`, modelled as an
association list of its entries (the claims quantify over one entry at a time,
so the unspecified hash iteration order is immaterial). -/
abbrev GroupedMetrics := List (Group × List (Time × Value))

/-- Output of rollup, src/db/aggregate.rs: `enum AggregatedMetric`. -/
inductive AggregatedMetric where
  | count (time : Time) (id : Id) (value : Value)
  | gauge (time : Time) (id : Id) (value : Value)
deriving DecidableEq

/-- Timestamp carried by an aggregated metric. -/
def AggregatedMetric.time : AggregatedMetric → Time
  | .count t _ _ => t
  | .gauge t _ _ => t

/-- Function `suffix_id` of src/db/aggregate.rs: append a suffix to the metric
name, keeping the dimensions. -/
def suffix_id (id : Id) (suffix : String) : Id :=
  (id.1 ++ suffix, id.2)

/-- Struct `Histogram` of src/db/aggregate.rs. -/
structure Histogram where
  min : Value
  max : Value
  median : Value
  average : Value
  percentile95 : Value
  percentile99 : Value
deriving DecidableEq

/-- Ascending stable sort, `sorted.sort_by(|a, b| a.cmp(b))`. Insertion sort is
extensionally equal to the source's stable merge sort: both return the unique
`(· ≤ ·)`-sorted permutation of a list of integers. -/
def sortValues (values : List Value) : List Value :=
  values.insertionSort (· ≤ ·)

/-- Embedding of `impl From<&Vec<i32>> for Histogram` (src/db/aggregate.rs).
The source unwraps `sorted.first()`, so the empty input (which would panic) is
mapped to `none`; on nonempty input every `getD` default is unreachable because
each index is within bounds (proved below). Fidelity notes on the two f64
computations: the percentile indices `(len as f64 * 0.95) as usize` and
`(len as f64 * 0.99) as usize` equal the rational floors `len * 95 / 100` and
`len * 99 / 100` for every feasible length (the f64 rounding error is far
below the 1/100 granularity). The average, by contrast, is an f64 running sum
divided in f64 and cast to `i32`; the `Int.tdiv` value below (the exact mean
truncated toward zero) agrees with it only for groups below roughly 2^21
samples, where every partial sum and the quotient are rounded exactly — for
larger groups the source's f64 rounding can diverge, so no claim theorem in
this file asserts anything about the `average` field. -/
def Histogram.ofValues (values : List Value) : Option Histogram :=
  let sorted := sortValues values
  if sorted.isEmpty then none
  else some
    { min := sorted.headD 0
      max := sorted.getLastD 0
      median := sorted.getD (sorted.length / 2) 0
      average := Int.tdiv sorted.sum (sorted.length : Int)
      percentile95 := sorted.getD (sorted.length * 95 / 100) 0
      percentile99 := sorted.getD (sorted.length * 99 / 100) 0 }

/-- Rust `Iterator::max_by` comparing `(time, value)` pairs by time: returns
the last maximal element, `none` on an empty iterator. -/
def maxByTime : List (Time × Value) → Option (Time × Value)
  | [] => none
  | x :: xs => some (xs.foldl (fun acc y => if acc.1 ≤ y.1 then y else acc) x)

/-- Rust `Iterator::max_by` on plain values: returns the last maximum. -/
def maxByValue : List Value → Option Value
  | [] => none
  | x :: xs => some (xs.foldl (fun acc y => if acc ≤ y then y else acc) x)

/-- Rollup of one group, the body of the `for (group, timeseries)` loop of
`aggregate` (src/db/aggregate.rs lines 41-73): an empty timeseries hits the
`None => continue` arm and produces nothing; otherwise the representative time
is the maximal timestamp, and the group fans out by kind. -/
def aggregateGroup (g : Group) (timeseries : List (Time × Value)) :
    List AggregatedMetric :=
  match maxByTime timeseries with
  | none => []
  | some tv =>
    let time := tv.1
    let values := timeseries.map Prod.snd
    match g with
    | .count id => [.count time id (values.foldl (fun memo value => wrapI32 (memo + value)) 0)]
    | .gauge id => [.gauge time id ((maxByValue values).getD 0)]
    | .histogram id =>
      match Histogram.ofValues values with
      | none => []
      | some h =>
        [ .gauge time (suffix_id id ".min") h.min,
          .gauge time (suffix_id id ".max") h.max,
          .gauge time (suffix_id id ".median") h.median,
          .gauge time (suffix_id id ".avg") h.average,
          .gauge time (suffix_id id ".95percentile") h.percentile95,
          .gauge time (suffix_id id ".99percentile") h.percentile99,
          .count time (suffix_id id ".count") (wrapI32 (values.length : Int)) ]

/-- Function `aggregate` of src/db/aggregate.rs: concatenate the rollups of all
groups. -/
def aggregate : GroupedMetrics → List AggregatedMetric
  | [] => []
  | (g, ts) :: rest => aggregateGroup g ts ++ aggregate rest

theorem aggregate_append (xs ys : GroupedMetrics) :
    aggregate (xs ++ ys) = aggregate xs ++ aggregate ys := by
  induction xs with
  | nil => rfl
  | cons p rest ih => cases p with
    | mk g ts => simp [aggregate, ih, List.append_assoc]

theorem foldl_maxByTime_spec (xs : List (Time × Value)) (x : Time × Value) :
    (xs.foldl (fun acc y => if acc.1 ≤ y.1 then y else acc) x = x ∨
      xs.foldl (fun acc y => if acc.1 ≤ y.1 then y else acc) x ∈ xs) ∧
    x.1 ≤ (xs.foldl (fun acc y => if acc.1 ≤ y.1 then y else acc) x).1 ∧
    ∀ s ∈ xs, s.1 ≤ (xs.foldl (fun acc y => if acc.1 ≤ y.1 then y else acc) x).1 := by
  induction xs generalizing x with
  | nil => simp
  | cons y ys ih =>
    have h := ih (if x.1 ≤ y.1 then y else x)
    refine ⟨?_, ?_, ?_⟩
    · rcases h.1 with h1 | h1
      · rw [List.foldl_cons, h1]
        by_cases hxy : x.1 ≤ y.1 <;> simp [hxy]
      · rw [List.foldl_cons]
        exact Or.inr (List.mem_cons_of_mem _ h1)
    · have h2 := h.2.1
      by_cases hxy : x.1 ≤ y.1
      · simp only [hxy, if_true] at h2
        rw [List.foldl_cons]
        simp only [hxy, if_true]
        exact le_trans hxy h2
      · simp only [hxy, if_false] at h2
        rw [List.foldl_cons]
        simpa [hxy] using h2
    · intro s hs
      rw [List.foldl_cons]
      rcases List.mem_cons.mp hs with rfl | hs
      · by_cases hxy : x.1 ≤ s.1
        · simpa [hxy] using h.2.1
        · exact le_trans (le_of_not_le hxy) (by simpa [hxy] using h.2.1)
      · exact h.2.2 s hs

theorem maxByTime_spec (tvs : List (Time × Value)) (h : tvs ≠ []) :
    ∃ tv, maxByTime tvs = some tv ∧ (tv ∈ tvs) ∧ ∀ s ∈ tvs, s.1 ≤ tv.1 := by
  match tvs with
  | [] => exact absurd rfl h
  | x :: xs =>
    have hs := foldl_maxByTime_spec xs x
    refine ⟨_, rfl, ?_, ?_⟩
    · rcases hs.1 with h1 | h1
      · rw [h1]; exact List.mem_cons_self _ _
      · exact List.mem_cons_of_mem _ h1
    · intro s hmem
      rcases List.mem_cons.mp hmem with rfl | hmem
      · exact hs.2.1
      · exact hs.2.2 s hmem

theorem foldl_maxByValue_spec (xs : List Value) (x : Value) :
    (xs.foldl (fun acc y => if acc ≤ y then y else acc) x = x ∨
      xs.foldl (fun acc y => if acc ≤ y then y else acc) x ∈ xs) ∧
    x ≤ xs.foldl (fun acc y => if acc ≤ y then y else acc) x ∧
    ∀ s ∈ xs, s ≤ xs.foldl (fun acc y => if acc ≤ y then y else acc) x := by
  induction xs generalizing x with
  | nil => simp
  | cons y ys ih =>
    have h := ih (if x ≤ y then y else x)
    refine ⟨?_, ?_, ?_⟩
    · rcases h.1 with h1 | h1
      · rw [List.foldl_cons, h1]
        by_cases hxy : x ≤ y <;> simp [hxy]
      · rw [List.foldl_cons]
        exact Or.inr (List.mem_cons_of_mem _ h1)
    · have h2 := h.2.1
      by_cases hxy : x ≤ y
      · simp only [hxy, if_true] at h2
        rw [List.foldl_cons]
        simp only [hxy, if_true]
        exact le_trans hxy h2
      · simp only [hxy, if_false] at h2
        rw [List.foldl_cons]
        simpa [hxy] using h2
    · intro s hs
      rw [List.foldl_cons]
      rcases List.mem_cons.mp hs with rfl | hs
      · by_cases hxy : x ≤ s
        · simpa [hxy] using h.2.1
        · exact le_trans (le_of_not_le hxy) (by simpa [hxy] using h.2.1)
      · exact h.2.2 s hs

theorem maxByValue_spec (vs : List Value) (h : vs ≠ []) :
    ∃ m, maxByValue vs = some m ∧ (m ∈ vs) ∧ ∀ v ∈ vs, v ≤ m := by
  match vs with
  | [] => exact absurd rfl h
  | x :: xs =>
    have hs := foldl_maxByValue_spec xs x
    refine ⟨_, rfl, ?_, ?_⟩
    · rcases hs.1 with h1 | h1
      · rw [h1]; exact List.mem_cons_self _ _
      · exact List.mem_cons_of_mem _ h1
    · intro s hmem
      rcases List.mem_cons.mp hmem with rfl | hmem
      · exact hs.2.1
      · exact hs.2.2 s hmem

theorem wrapI32_wrapI32_add (a b : Int) :
    wrapI32 (wrapI32 a + b) = wrapI32 (a + b) := by
  unfold wrapI32
  omega

theorem wrapI32_eq_self {z : Int} (h1 : -2147483648 ≤ z) (h2 : z < 2147483648) :
    wrapI32 z = z := by
  unfold wrapI32
  omega

theorem foldl_wrapI32_add (vs : List Value) : ∀ a : Int,
    vs.foldl (fun memo value => wrapI32 (memo + value)) (wrapI32 a) =
      wrapI32 (a + vs.sum) := by
  induction vs with
  | nil =>
    intro a
    simp
  | cons v vs ih =>
    intro a
    rw [List.foldl_cons, wrapI32_wrapI32_add, ih (a + v), List.sum_cons, add_assoc]

theorem count_fold_eq_wrap_sum (vs : List Value) :
    vs.foldl (fun memo value => wrapI32 (memo + value)) 0 = wrapI32 vs.sum := by
  have h0 : (0 : Int) = wrapI32 0 := by decide
  rw [h0, foldl_wrapI32_add]
  simp

/-- Counterexample to C1: four Count events of value 2^30 = 1073741824 (each a
valid i32) aggregate to a Count of value 0, because the source folds in i32,
which wraps on overflow in release builds (and panics in debug) — not to the
arithmetic sum 2^32. -/
theorem count_sum_wraps :
    aggregate [(Group.count ("reqs", []),
        [((0 : Time), (1073741824 : Value)), (0, 1073741824),
          (0, 1073741824), (0, 1073741824)])] =
      [AggregatedMetric.count 0 ("reqs", []) 0] ∧
    (0 : Int) ≠
      ([((0 : Time), (1073741824 : Value)), (0, 1073741824),
        (0, 1073741824), (0, 1073741824)].map Prod.snd).sum := by
  exact ⟨by decide, by decide⟩

/-- C1 (amended): for every collection of Count events sharing one identifier
within one aggregation cycle, `aggregate` produces a single Count output for
that group whose value is the arithmetic sum of the events' input values
reduced into i32 two's complement (the wrapping semantics of the source's i32
fold in release builds); in particular it equals the exact arithmetic sum
whenever that sum lies within the i32 range. -/
theorem count_group_sums (id : Id) (tvs : List (Time × Value))
    (pre post : GroupedMetrics) (h : tvs ≠ []) :
    (∃ t, aggregate (pre ++ (Group.count id, tvs) :: post) =
      aggregate pre ++
        AggregatedMetric.count t id (wrapI32 (tvs.map Prod.snd).sum) ::
          aggregate post) ∧
    (-2147483648 ≤ (tvs.map Prod.snd).sum → (tvs.map Prod.snd).sum < 2147483648 →
      wrapI32 (tvs.map Prod.snd).sum = (tvs.map Prod.snd).sum) := by
  obtain ⟨tv, hmax, -, -⟩ := maxByTime_spec tvs h
  refine ⟨⟨tv.1, ?_⟩, fun h1 h2 => wrapI32_eq_self h1 h2⟩
  rw [show (Group.count id, tvs) :: post = [(Group.count id, tvs)] ++ post from rfl,
    aggregate_append, aggregate_append]
  simp [aggregate, aggregateGroup, hmax, count_fold_eq_wrap_sum]

/-- Witness for C1 at the spec's example batch: two Count events of values 1
and 3 aggregate to a single Count of value 4 (the in-range sum survives the
wrap unchanged). -/
theorem count_group_sums_witness :
    ∃ t, aggregate [(Group.count ("reqs", []), [(5, 1), (5, 3)])] =
      [AggregatedMetric.count t ("reqs", []) 4] := by
  obtain ⟨⟨t, ht⟩, -⟩ := count_group_sums ("reqs", []) [(5, 1), (5, 3)] [] [] (by decide)
  refine ⟨t, ?_⟩
  have hw : wrapI32 (([((5 : Time), (1 : Value)), (5, 3)].map Prod.snd).sum) = 4 := by
    decide
  rw [hw] at ht
  simpa using ht

/-- C2: for every collection of Gauge events sharing one identifier within one
aggregation cycle, `aggregate` produces a single Gauge output for that group
whose value equals the maximum of the events' input values. -/
theorem gauge_group_maxes (id : Id) (tvs : List (Time × Value))
    (pre post : GroupedMetrics) (h : tvs ≠ []) :
    ∃ t m, aggregate (pre ++ (Group.gauge id, tvs) :: post) =
        aggregate pre ++ AggregatedMetric.gauge t id m :: aggregate post ∧
      m ∈ tvs.map Prod.snd ∧ ∀ v ∈ tvs.map Prod.snd, v ≤ m := by
  obtain ⟨tv, hmax, -, -⟩ := maxByTime_spec tvs h
  obtain ⟨m, hm, hmem, hle⟩ := maxByValue_spec (tvs.map Prod.snd) (by simpa using h)
  refine ⟨tv.1, m, ?_, hmem, hle⟩
  rw [show (Group.gauge id, tvs) :: post = [(Group.gauge id, tvs)] ++ post from rfl,
    aggregate_append, aggregate_append]
  simp [aggregate, aggregateGroup, hmax, hm]

/-- Witness for C2: gauge readings 40 and 55 aggregate to a single Gauge whose
value 55 is the maximum. -/
theorem gauge_group_maxes_witness :
    ∃ t m, aggregate [(Group.gauge ("cpu", []), [(1, 40), (2, 55)])] =
        [AggregatedMetric.gauge t ("cpu", []) m] ∧
      m ∈ [(40 : Value), 55] ∧ ∀ v ∈ [(40 : Value), 55], v ≤ m := by
  have h := gauge_group_maxes ("cpu", []) [(1, 40), (2, 55)] [] [] (by decide)
  simpa using h

theorem sortValues_perm (values : List Value) : (sortValues values).Perm values :=
  List.perm_insertionSort _ _

theorem sortValues_length (values : List Value) :
    (sortValues values).length = values.length :=
  (sortValues_perm values).length_eq

theorem sortValues_sorted (values : List Value) :
    List.Sorted (· ≤ ·) (sortValues values) :=
  List.sorted_insertionSort _ _

theorem sortValues_ne_nil {values : List Value} (h : values ≠ []) :
    sortValues values ≠ [] := by
  intro hc
  apply h
  have := sortValues_length values
  rw [hc] at this
  exact List.length_eq_zero.mp this.symm

theorem ofValues_of_ne_nil (values : List Value) (h : values ≠ []) :
    Histogram.ofValues values = some
      { min := (sortValues values).headD 0
        max := (sortValues values).getLastD 0
        median := (sortValues values).getD ((sortValues values).length / 2) 0
        average := Int.tdiv (sortValues values).sum ((sortValues values).length : Int)
        percentile95 := (sortValues values).getD ((sortValues values).length * 95 / 100) 0
        percentile99 := (sortValues values).getD ((sortValues values).length * 99 / 100) 0 } := by
  have hne := sortValues_ne_nil h
  simp only [Histogram.ofValues, List.isEmpty_eq_true, hne, if_false]

/-- C4: for every group with at least one event, every aggregated metric
produced for that group carries the maximum (most recent) event timestamp
among the group's members. -/
theorem group_time_is_max (g : Group) (tvs : List (Time × Value)) (h : tvs ≠ []) :
    ∃ t, t ∈ tvs.map Prod.fst ∧ (∀ s ∈ tvs, s.1 ≤ t) ∧
      ∀ m ∈ aggregateGroup g tvs, m.time = t := by
  obtain ⟨tv, hmax, hmem, hle⟩ := maxByTime_spec tvs h
  refine ⟨tv.1, List.mem_map_of_mem _ hmem, hle, ?_⟩
  intro m hm
  have hofv := ofValues_of_ne_nil (tvs.map Prod.snd) (by simpa using h)
  cases g with
  | count id =>
    simp only [aggregateGroup, hmax, List.mem_singleton] at hm
    simp [hm, AggregatedMetric.time]
  | gauge id =>
    simp only [aggregateGroup, hmax, List.mem_singleton] at hm
    simp [hm, AggregatedMetric.time]
  | histogram id =>
    simp only [aggregateGroup, hmax, hofv, List.mem_cons,
      List.mem_singleton, List.not_mem_nil, or_false] at hm
    rcases hm with rfl | rfl | rfl | rfl | rfl | rfl | rfl <;> rfl

/-- Witness for C4 at a two-event gauge group: every output carries time 2. -/
theorem group_time_is_max_witness :
    ∃ t, t ∈ ([(1, 40), (2, 55)].map (Prod.fst (α := Time) (β := Value))) ∧
      (∀ s ∈ [((1 : Time), (40 : Value)), (2, 55)], s.1 ≤ t) ∧
      ∀ m ∈ aggregateGroup (Group.gauge ("cpu", [])) [(1, 40), (2, 55)],
        m.time = t := by
  exact group_time_is_max (Group.gauge ("cpu", [])) [(1, 40), (2, 55)] (by decide)

/-- C3 (amended): a Histogram group of size n ≥ 1 fans out into exactly 7
aggregated metrics: six Gauges suffixed .min, .max, .median, .avg,
.95percentile, .99percentile and one Count suffixed .count whose value is n
put through the truncating `as i32` cast — equal to n whenever n < 2^31 —
the dimensions of the identifier unchanged in every derived output. -/
theorem histogram_fanout (id : Id) (tvs : List (Time × Value))
    (pre post : GroupedMetrics) (h : tvs ≠ []) :
    (∃ (t : Time) (hst : Histogram),
      aggregate (pre ++ (Group.histogram id, tvs) :: post) =
        aggregate pre ++
          [ AggregatedMetric.gauge t (suffix_id id ".min") hst.min,
            AggregatedMetric.gauge t (suffix_id id ".max") hst.max,
            AggregatedMetric.gauge t (suffix_id id ".median") hst.median,
            AggregatedMetric.gauge t (suffix_id id ".avg") hst.average,
            AggregatedMetric.gauge t (suffix_id id ".95percentile") hst.percentile95,
            AggregatedMetric.gauge t (suffix_id id ".99percentile") hst.percentile99,
            AggregatedMetric.count t (suffix_id id ".count") (wrapI32 (tvs.length : Int)) ]
          ++ aggregate post) ∧
    (aggregateGroup (Group.histogram id) tvs).length = 7 ∧
    (∀ s, (suffix_id id s).2 = id.2) ∧
    ((tvs.length : Int) < 2147483648 → wrapI32 (tvs.length : Int) = (tvs.length : Int)) := by
  obtain ⟨tv, hmax, -, -⟩ := maxByTime_spec tvs h
  obtain ⟨hst0, hofv⟩ : ∃ hst0, Histogram.ofValues (tvs.map Prod.snd) = some hst0 :=
    ⟨_, ofValues_of_ne_nil _ (by simpa using h)⟩
  refine ⟨⟨tv.1, hst0, ?_⟩, ?_, fun s => rfl, fun hlt => wrapI32_eq_self (by omega) hlt⟩
  · rw [show (Group.histogram id, tvs) :: post = [(Group.histogram id, tvs)] ++ post from rfl,
      aggregate_append, aggregate_append]
    simp [aggregate, aggregateGroup, hmax, hofv]
  · simp [aggregateGroup, hmax, hofv]

/-- Witness for C3 at the spec's example: three timing samples 10, 20, 30
produce the seven derived metrics with count 3 (in range, so the cast is the
identity). -/
theorem histogram_fanout_witness :
    (∃ (t : Time) (hst : Histogram),
      aggregate [(Group.histogram ("lat", []), [(1, 10), (1, 20), (1, 30)])] =
        [ AggregatedMetric.gauge t (suffix_id ("lat", []) ".min") hst.min,
          AggregatedMetric.gauge t (suffix_id ("lat", []) ".max") hst.max,
          AggregatedMetric.gauge t (suffix_id ("lat", []) ".median") hst.median,
          AggregatedMetric.gauge t (suffix_id ("lat", []) ".avg") hst.average,
          AggregatedMetric.gauge t (suffix_id ("lat", []) ".95percentile") hst.percentile95,
          AggregatedMetric.gauge t (suffix_id ("lat", []) ".99percentile") hst.percentile99,
          AggregatedMetric.count t (suffix_id ("lat", []) ".count") 3 ]) ∧
    (aggregateGroup (Group.histogram ("lat", [])) [(1, 10), (1, 20), (1, 30)]).length = 7 := by
  obtain ⟨⟨t, hst, h1⟩, h2, -, -⟩ :=
    histogram_fanout ("lat", []) [(1, 10), (1, 20), (1, 30)] [] [] (by decide)
  refine ⟨⟨t, hst, ?_⟩, h2⟩
  have hw : wrapI32 (([((1 : Time), (10 : Value)), (1, 20), (1, 30)].length : Int)) = 3 := by
    decide
  rw [hw] at h1
  simpa using h1

theorem aggregateGroup_histogram_eq (id : Id) (tvs : List (Time × Value))
    (tv : Time × Value) (hst : Histogram)
    (hmax : maxByTime tvs = some tv)
    (hofv : Histogram.ofValues (tvs.map Prod.snd) = some hst) :
    aggregateGroup (Group.histogram id) tvs =
      [ AggregatedMetric.gauge tv.1 (suffix_id id ".min") hst.min,
        AggregatedMetric.gauge tv.1 (suffix_id id ".max") hst.max,
        AggregatedMetric.gauge tv.1 (suffix_id id ".median") hst.median,
        AggregatedMetric.gauge tv.1 (suffix_id id ".avg") hst.average,
        AggregatedMetric.gauge tv.1 (suffix_id id ".95percentile") hst.percentile95,
        AggregatedMetric.gauge tv.1 (suffix_id id ".99percentile") hst.percentile99,
        AggregatedMetric.count tv.1 (suffix_id id ".count")
          (wrapI32 ((tvs.map Prod.snd).length : Int)) ] := by
  simp [aggregateGroup, hmax, hofv]

theorem foldl_keepMax_const (m : Nat) :
    (List.replicate m ((0 : Time), (0 : Value))).foldl
      (fun acc y => if acc.1 ≤ y.1 then y else acc) ((0 : Time), (0 : Value)) =
      ((0 : Time), (0 : Value)) := by
  induction m with
  | zero => rfl
  | succ k ih =>
    rw [List.replicate_succ, List.foldl_cons]
    exact ih

/-- Counterexample to C3: a Histogram group of n = 2^31 samples (each a valid
zero-valued i32 event) produces a .count metric of value -2^31, because the
source computes `values.len() as i32`, a truncating cast — not n itself. -/
theorem histogram_count_wraps :
    (∃ hst : Histogram,
      aggregate [(Group.histogram ("lat", []),
          List.replicate 2147483648 ((0 : Time), (0 : Value)))] =
        [ AggregatedMetric.gauge 0 (suffix_id ("lat", []) ".min") hst.min,
          AggregatedMetric.gauge 0 (suffix_id ("lat", []) ".max") hst.max,
          AggregatedMetric.gauge 0 (suffix_id ("lat", []) ".median") hst.median,
          AggregatedMetric.gauge 0 (suffix_id ("lat", []) ".avg") hst.average,
          AggregatedMetric.gauge 0 (suffix_id ("lat", []) ".95percentile") hst.percentile95,
          AggregatedMetric.gauge 0 (suffix_id ("lat", []) ".99percentile") hst.percentile99,
          AggregatedMetric.count 0 (suffix_id ("lat", []) ".count") (-2147483648) ]) ∧
    (List.replicate 2147483648 ((0 : Time), (0 : Value))).length = 2147483648 ∧
    ((-2147483648 : Int) ≠ ((2147483648 : Nat) : Int)) := by
  refine ⟨?_, by rw [List.length_replicate], by decide⟩
  have hL : List.replicate 2147483648 ((0 : Time), (0 : Value)) =
      ((0 : Time), (0 : Value)) :: List.replicate 2147483647 ((0 : Time), (0 : Value)) := by
    rw [show (2147483648 : Nat) = 2147483647 + 1 from by norm_num, List.replicate_succ]
  have hmax : maxByTime (List.replicate 2147483648 ((0 : Time), (0 : Value))) =
      some ((0 : Time), (0 : Value)) := by
    rw [hL]
    show some ((List.replicate 2147483647 ((0 : Time), (0 : Value))).foldl
      (fun acc y => if acc.1 ≤ y.1 then y else acc) ((0 : Time), (0 : Value))) = _
    rw [foldl_keepMax_const]
  have hvals : (List.replicate 2147483648 ((0 : Time), (0 : Value))).map Prod.snd =
      List.replicate 2147483648 (0 : Value) := by
    rw [List.map_replicate]
  have hne : List.replicate 2147483648 (0 : Value) ≠ [] := by
    intro hh
    have hlen := congrArg List.length hh
    rw [List.length_replicate, List.length_nil] at hlen
    exact absurd hlen (by norm_num)
  obtain ⟨hst0, hofv⟩ :
      ∃ hst0, Histogram.ofValues (List.replicate 2147483648 (0 : Value)) = some hst0 :=
    ⟨_, ofValues_of_ne_nil _ hne⟩
  have hw : wrapI32 (((List.replicate 2147483648 (0 : Value)).length : Nat) : Int) =
      -2147483648 := by
    rw [List.length_replicate]
    decide
  have hofv2 : Histogram.ofValues
      ((List.replicate 2147483648 ((0 : Time), (0 : Value))).map Prod.snd) = some hst0 := by
    rw [hvals]
    exact hofv
  have hmain := aggregateGroup_histogram_eq ("lat", [])
    (List.replicate 2147483648 ((0 : Time), (0 : Value))) ((0 : Time), (0 : Value)) hst0
    hmax hofv2
  rw [hvals, hw] at hmain
  refine ⟨hst0, ?_⟩
  have hagg : aggregate [(Group.histogram ("lat", []),
      List.replicate 2147483648 ((0 : Time), (0 : Value)))] =
      aggregateGroup (Group.histogram ("lat", []))
        (List.replicate 2147483648 ((0 : Time), (0 : Value))) ++ [] := rfl
  rw [hagg, List.append_nil, hmain]

/-- C6: the percentile indices len * 95 / 100 and len * 99 / 100 (and the
median index len / 2) are strictly below len for every non-empty group, so the
statistics computation always indexes in bounds and never fails; p95 and p99
are the sorted elements at those indices, and a group of one sample uses
index 0 for every statistic. -/
theorem histogram_percentile_bounds (values : List Value) (h : values ≠ []) :
    values.length * 95 / 100 < values.length ∧
    values.length * 99 / 100 < values.length ∧
    values.length / 2 < values.length ∧
    (∃ hst, Histogram.ofValues values = some hst ∧
      hst.percentile95 = (sortValues values).getD (values.length * 95 / 100) 0 ∧
      hst.percentile99 = (sortValues values).getD (values.length * 99 / 100) 0) ∧
    (values.length = 1 →
      values.length * 95 / 100 = 0 ∧ values.length * 99 / 100 = 0 ∧
        values.length / 2 = 0) := by
  have hn : 0 < values.length := List.length_pos.mpr h
  refine ⟨?_, ?_, ?_, ?_, ?_⟩
  · rw [Nat.div_lt_iff_lt_mul (by norm_num)]
    omega
  · rw [Nat.div_lt_iff_lt_mul (by norm_num)]
    omega
  · exact Nat.div_lt_self hn (by norm_num)
  · refine ⟨_, ofValues_of_ne_nil values h, ?_, ?_⟩
    · rw [sortValues_length]
    · rw [sortValues_length]
  · intro h1
    rw [h1]
    decide

/-- Witness for C6 at a singleton group: every index is 0 and both percentiles
are the lone sample. -/
theorem histogram_percentile_bounds_witness :
    [(7 : Value)].length * 95 / 100 < [(7 : Value)].length ∧
    [(7 : Value)].length * 99 / 100 < [(7 : Value)].length ∧
    [(7 : Value)].length / 2 < [(7 : Value)].length ∧
    (∃ hst, Histogram.ofValues [(7 : Value)] = some hst ∧
      hst.percentile95 = (sortValues [(7 : Value)]).getD ([(7 : Value)].length * 95 / 100) 0 ∧
      hst.percentile99 = (sortValues [(7 : Value)]).getD ([(7 : Value)].length * 99 / 100) 0) ∧
    ([(7 : Value)].length = 1 →
      [(7 : Value)].length * 95 / 100 = 0 ∧ [(7 : Value)].length * 99 / 100 = 0 ∧
        [(7 : Value)].length / 2 = 0) := by
  exact histogram_percentile_bounds [7] (by decide)

/-- C10: a group whose list of (timestamp, value) pairs is empty — of any of
the three kinds — is silently skipped by `aggregate` (the `None => continue`
arm): it contributes no output and causes no failure. -/
theorem empty_group_skipped (g : Group) (pre post : GroupedMetrics) :
    aggregate (pre ++ (g, []) :: post) = aggregate (pre ++ post) := by
  rw [aggregate_append, aggregate_append]
  have : aggregateGroup g [] = [] := by
    cases g <;> rfl
  simp [aggregate, this]

/-- Collected measurement events (src/metric.rs: `enum CollectedMetric`). -/
inductive CollectedMetric where
  | count (id : Id) (value : Value)
  | gauge (id : Id) (value : Value)
  | histogram (id : Id) (value : Value)
deriving DecidableEq

/-- The state of the metrics database that the claims about draining observe:
the collected-metrics buffer (src/db/mod.rs: field `collected_metrics` of
`struct Db`, a `Mutex<Cell<Vec<CollectedMetric>>>`; the lock serializes the
operations below, so the sequential model captures every interleaving of
whole `collect` and `drain` calls). -/
structure Db where
  collected_metrics : List CollectedMetric
deriving DecidableEq

/-- Method `Db::collect` (src/db/mod.rs lines 49-52): extend the buffer with a
batch under the lock. -/
def Db.collect (db : Db) (metrics : List CollectedMetric) : Db :=
  { collected_metrics := db.collected_metrics ++ metrics }

/-- The drain at the start of `Db::aggregate` (src/db/mod.rs lines 64-70):
`cell.replace(Vec::new())` swaps the buffer for an empty vector and returns
the previous contents, which the rest of `Db::aggregate` then groups and
aggregates. -/
def Db.drain (db : Db) : List CollectedMetric × Db :=
  (db.collected_metrics, { collected_metrics := [] })

/-- One serialized operation on the buffer: a producer's `collect` of a batch,
or the drain performed by one aggregation cycle. -/
inductive DbOp where
  | collect (metrics : List CollectedMetric)
  | drain

/-- Run a sequence of operations, returning the final state and, per drain (in
order), the batch that cycle processed. -/
def runOps : Db → List DbOp → Db × List (List CollectedMetric)
  | db, [] => (db, [])
  | db, DbOp.collect ms :: ops => runOps (db.collect ms) ops
  | db, DbOp.drain :: ops =>
    let step := db.drain
    let rest := runOps step.2 ops
    (rest.1, step.1 :: rest.2)

/-- All events submitted by the `collect` operations of a trace, in order. -/
def collectedInputs : List DbOp → List CollectedMetric
  | [] => []
  | DbOp.collect ms :: ops => ms ++ collectedInputs ops
  | DbOp.drain :: ops => collectedInputs ops

/-- C7: the drain swaps the buffer for an empty collection and returns the
previous contents, so after the swap the buffer is empty and the cycle
processes exactly the events collected before it; over any trace of collects
and drains, the drained batches in order, followed by the final buffer,
are exactly the collected events in order — each event lands in exactly one
cycle, none duplicated and none lost. -/
theorem drain_conservation :
    (∀ db : Db, db.drain = (db.collected_metrics, { collected_metrics := [] })) ∧
    (∀ (db : Db) (ops : List DbOp),
      (runOps db ops).2.flatten ++ (runOps db ops).1.collected_metrics =
        db.collected_metrics ++ collectedInputs ops) := by
  refine ⟨fun db => rfl, fun db ops => ?_⟩
  induction ops generalizing db with
  | nil => simp [runOps, collectedInputs]
  | cons op ops ih =>
    cases op with
    | collect ms =>
      simp only [runOps, collectedInputs]
      rw [ih]
      simp [Db.collect, List.append_assoc]
    | drain =>
      simp only [runOps, collectedInputs, List.flatten_cons]
      rw [List.append_assoc, ih]
      simp [Db.drain]

/-- Structural equality of identifiers, the derived `PartialEq`/`Eq` on
`type Id = (Atom, Vec<Dimension>)` (src/metric.rs): component-wise equality of
the name and of the dimension vector, the latter element-wise in order. -/
def idEq (a b : Id) : Bool :=
  a == b

/-- Counterexample to C8: two identifiers with the same name carrying the same
dimension pairs listed in different orders are structurally unequal, although
their dimension multisets agree — `Vec` equality is order-sensitive. -/
theorem idEq_order_matters :
    idEq ("m", [("a", "1"), ("b", "2")]) ("m", [("b", "2"), ("a", "1")]) = false ∧
    (("m", [("a", "1"), ("b", "2")]) : Id).1 = (("m", [("b", "2"), ("a", "1")]) : Id).1 ∧
    (↑(("m", [("a", "1"), ("b", "2")]) : Id).2 : Multiset Dimension) =
      ↑(("m", [("b", "2"), ("a", "1")]) : Id).2 := by
  refine ⟨by decide, rfl, ?_⟩
  apply Multiset.coe_eq_coe.mpr
  decide

/-- C8 amended: two identifiers are equal iff their names are equal and their
dimension lists are equal as ordered sequences; the same pairs in a different
order give distinct identifiers. -/
theorem idEq_iff_name_and_dims (a b : Id) :
    idEq a b = true ↔ a.1 = b.1 ∧ a.2 = b.2 := by
  constructor
  · intro h
    have := eq_of_beq (a := a) (b := b) h
    exact ⟨congrArg Prod.fst this, congrArg Prod.snd this⟩
  · intro ⟨h1, h2⟩
    have : a = b := Prod.ext h1 h2
    simp [idEq, this]

/-!
Embedding of the StatsD line parser, src/recv/push/statsd.rs. A nom parser
becomes a function from the remaining input (a list of characters; the
listeners feed UTF-8 text, and every byte the grammar inspects is ASCII) to
`none` for nom's Error — the `complete`-style combinators used throughout
conflate Incomplete with Error — or to the rest of the input and the value.
The `double` parser wraps `recognize!`, so its value is the matched slice;
`f64::from_str` on a slice of this grammar always succeeds, and the claims
never observe the numeric value, so the value is kept as the matched text.
-/

abbrev StatsdP (α : Type) := List Char → Option (List Char × α)

/-- Sequencing of parsers inside a `do_parse` chain. -/
def seqP (p : StatsdP α) (f : α → StatsdP β) : StatsdP β := fun i =>
  match p i with
  | none => none
  | some (rem, a) => f a rem

/-- Result of a `do_parse` chain. -/
def pureP (a : α) : StatsdP α := fun i => some (i, a)

/-- The `alt_complete!` combinator: try the left parser from the current
position, fall back to the right on failure. -/
def altP (p q : StatsdP α) : StatsdP α := fun i =>
  match p i with
  | some r => some r
  | none => q i

/-- The `opt!(complete!(...))` combinator: failure consumes nothing. -/
def optP (p : StatsdP α) : StatsdP (Option α) := fun i =>
  match p i with
  | some (rem, a) => some (rem, some a)
  | none => some (i, none)

/-- The `tag!` combinator: match a literal. -/
def tagP (s : List Char) : StatsdP Unit := fun i =>
  if s.isPrefixOf i then some (i.drop s.length, ()) else none

/-- ASCII digit test (nom's is_digit). -/
def isStatsdDigit (c : Char) : Bool :=
  '0' ≤ c && c ≤ '9'

/-- nom's is_alphanumeric over ASCII. -/
def isWordChar (c : Char) : Bool :=
  ('0' ≤ c && c ≤ '9') || ('a' ≤ c && c ≤ 'z') || ('A' ≤ c && c ≤ 'Z')

/-- Characters `metric_name` accepts: alphanumeric, '.' or '_'. -/
def isNameChar (c : Char) : Bool :=
  isWordChar c || c == '.' || c == '_'

/-- The `metric_name` parser: `take_while!` of name characters (possibly
empty), the UTF-8 decoding always succeeding on our character model. -/
def metricNameP : StatsdP (List Char) := fun i =>
  some (i.dropWhile isNameChar, i.takeWhile isNameChar)

/-- nom's `digit`: one or more ASCII digits. -/
def digitP : StatsdP (List Char) := fun i =>
  match i.takeWhile isStatsdDigit with
  | [] => none
  | d :: ds => some (i.dropWhile isStatsdDigit, d :: ds)

/-- First alternative inside `double`: digits '.' optional digits. -/
def intFracP : StatsdP (List Char) :=
  seqP digitP fun a =>
  seqP (tagP ['.']) fun _ =>
  seqP (optP digitP) fun ob =>
  pureP (a ++ '.' :: ob.getD [])

/-- Second alternative inside `double`: optional digits '.' digits. -/
def fracOnlyP : StatsdP (List Char) :=
  seqP (optP digitP) fun oa =>
  seqP (tagP ['.']) fun _ =>
  seqP digitP fun b =>
  pureP (oa.getD [] ++ '.' :: b)

/-- The `double` parser: `recognize!` of an optional minus sign and one of the
three numeric shapes, the value being the recognized text. -/
def doubleP : StatsdP (List Char) :=
  seqP (optP (tagP ['-'])) fun osign =>
  seqP (altP intFracP (altP fracOnlyP digitP)) fun b =>
  pureP (match osign with | some _ => '-' :: b | none => b)

/-- The `sample_rate` parser: "|@" then a double. -/
def sampleRateP : StatsdP (List Char) :=
  seqP (tagP ['|', '@']) fun _ =>
  doubleP

/-- Parsed StatsD events (src/recv/push/statsd.rs: `enum StatsdMetric`), the
f64 value kept as its source text. -/
inductive StatsdMetric where
  | counter (name value : List Char) (sampleRate : Option (List Char))
  | gauge (name value : List Char)
  | timer (name value : List Char) (sampleRate : Option (List Char))
deriving DecidableEq

/-- The `counter` parser: name ':' value "|c" and an optional sample rate,
which the source parses but then discards (the built metric always carries
`None`). -/
def counterP : StatsdP StatsdMetric :=
  seqP metricNameP fun name =>
  seqP (tagP [':']) fun _ =>
  seqP doubleP fun value =>
  seqP (tagP ['|', 'c']) fun _ =>
  seqP (optP sampleRateP) fun _sr =>
  pureP (StatsdMetric.counter name value none)

/-- The `gauge` parser: name ':' value "|g" — no sample-rate branch exists. -/
def gaugeP : StatsdP StatsdMetric :=
  seqP metricNameP fun name =>
  seqP (tagP [':']) fun _ =>
  seqP doubleP fun value =>
  seqP (tagP ['|', 'g']) fun _ =>
  pureP (StatsdMetric.gauge name value)

/-- The `timer` parser: name ':' value "|ms" — no sample-rate branch exists. -/
def timerP : StatsdP StatsdMetric :=
  seqP metricNameP fun name =>
  seqP (tagP [':']) fun _ =>
  seqP doubleP fun value =>
  seqP (tagP ['|', 'm', 's']) fun _ =>
  pureP (StatsdMetric.timer name value none)

/-- One line: `alt_complete!(counter | gauge | timer)`. -/
def lineP : StatsdP StatsdMetric :=
  altP counterP (altP gaugeP timerP)

/-- The loop of `separated_nonempty_list_complete!`: try the '\n' separator
then the next element; either failing ends the list with the input positioned
before the separator. Each iteration consumes the separator, so a fuel of the
input length can never be exhausted before the loop stops by itself. -/
def metricsLoop : Nat → List StatsdMetric → List Char → List Char × List StatsdMetric
  | 0, acc, i => (i, acc)
  | fuel + 1, acc, i =>
    match tagP ['\n'] i with
    | none => (i, acc)
    | some (r1, _) =>
      match lineP r1 with
      | none => (i, acc)
      | some (r2, m) => metricsLoop fuel (acc ++ [m]) r2

/-- The `metrics` parser: a nonempty '\n'-separated list of lines. -/
def metricsP : StatsdP (List StatsdMetric) := fun i =>
  match lineP i with
  | none => none
  | some (r1, m) =>
    let rest := metricsLoop i.length [m] r1
    some (rest.1, rest.2)

/-- Function `parse_metrics` (src/recv/push/statsd.rs lines 21-29): run the
list parser and keep the metrics of a `Done`, ignoring any unconsumed rest of
the input; an outright failure becomes an error value. -/
def parse_metrics (i : List Char) : Except String (List StatsdMetric) :=
  match metricsP i with
  | some (_, ms) => Except.ok ms
  | none => Except.error "invalid metrics"

/-- A well-formed input line, as data: its name, value text and, for the
counter shape, an optional sample-rate text. -/
inductive Line where
  | counter (name value : List Char) (rate : Option (List Char))
  | gauge (name value : List Char)
  | timer (name value : List Char)
deriving DecidableEq

/-- The concrete text of a line. -/
def Line.render : Line → List Char
  | .counter n v none => n ++ ':' :: v ++ ['|', 'c']
  | .counter n v (some r) => n ++ ':' :: v ++ ['|', 'c', '|', '@'] ++ r
  | .gauge n v => n ++ ':' :: v ++ ['|', 'g']
  | .timer n v => n ++ ':' :: v ++ ['|', 'm', 's']

/-- The metric a line should parse to (sample rates are discarded). -/
def Line.metric : Line → StatsdMetric
  | .counter n v _ => .counter n v none
  | .gauge n v => .gauge n v
  | .timer n v => .timer n v none

/-- Membership in the numeric-body language of `double`: all digits and
nonempty, or digits '.' digits with at least one digit present. -/
def numBody (l : List Char) : Bool :=
  if l.contains '.' then
    (l.takeWhile (fun c => c != '.')).all isStatsdDigit &&
    ((l.dropWhile (fun c => c != '.')).tail).all isStatsdDigit &&
    (!(l.takeWhile (fun c => c != '.')).isEmpty ||
      !((l.dropWhile (fun c => c != '.')).tail).isEmpty)
  else
    !l.isEmpty && l.all isStatsdDigit

/-- Membership in the numeral language of `double`: an optional minus sign
then a numeric body. -/
def numeral : List Char → Bool
  | [] => false
  | c :: rest => if c == '-' then numBody rest else numBody (c :: rest)

/-- A well-formed line: name characters only in the name, numeral texts for
the value and any sample rate. -/
def wfLine : Line → Bool
  | .counter n v r =>
    n.all isNameChar && numeral v &&
      (match r with | none => true | some s => numeral s)
  | .gauge n v => n.all isNameChar && numeral v
  | .timer n v => n.all isNameChar && numeral v

/-- Rendering of the lines after the first: each is preceded by the '\n'
separator, and `tail` follows everything. -/
def renderSeq : List Line → List Char → List Char
  | [], tail => tail
  | l :: ls, tail => '\n' :: (l.render ++ renderSeq ls tail)

theorem takeWhile_append_boundary {p : Char → Bool} {a rest : List Char}
    (ha : a.all p = true)
    (hrest : ∀ c, rest.head? = some c → p c = false) :
    (a ++ rest).takeWhile p = a ∧ (a ++ rest).dropWhile p = rest := by
  induction a with
  | nil =>
    simp only [List.nil_append]
    cases rest with
    | nil => simp
    | cons c cs =>
      have hc := hrest c rfl
      simp [List.takeWhile_cons, List.dropWhile_cons, hc]
  | cons x xs ih =>
    simp only [List.all_cons, Bool.and_eq_true] at ha
    have h := ih ha.2
    simp [List.takeWhile_cons, List.dropWhile_cons, ha.1, h.1, h.2]

theorem isPrefixOf_self_append (s rest : List Char) :
    s.isPrefixOf (s ++ rest) = true := by
  induction s with
  | nil => simp [List.isPrefixOf]
  | cons c cs ih => simp [List.isPrefixOf, ih]

theorem tagP_self_append (s rest : List Char) :
    tagP s (s ++ rest) = some (rest, ()) := by
  simp [tagP, isPrefixOf_self_append, List.drop_left]

theorem tagP_cons_ne {c d : Char} (h : (c == d) = false) (s rest : List Char) :
    tagP (c :: s) (d :: rest) = none := by
  simp [tagP, List.isPrefixOf, h]

theorem tagP2_snd_ne {c d e : Char} (h : (d == e) = false) (rest : List Char) :
    tagP [c, d] (c :: e :: rest) = none := by
  simp [tagP, List.isPrefixOf, h]

theorem metricNameP_append {n rest : List Char} (hn : n.all isNameChar = true)
    (hrest : ∀ c, rest.head? = some c → isNameChar c = false) :
    metricNameP (n ++ rest) = some (rest, n) := by
  have h := takeWhile_append_boundary hn hrest
  simp [metricNameP, h.1, h.2]

theorem digitP_append {a rest : List Char} (hne : a ≠ [])
    (ha : a.all isStatsdDigit = true)
    (hrest : ∀ c, rest.head? = some c → isStatsdDigit c = false) :
    digitP (a ++ rest) = some (rest, a) := by
  have h := takeWhile_append_boundary ha hrest
  cases a with
  | nil => exact absurd rfl hne
  | cons d ds =>
    simp only [List.cons_append] at h
    simp [digitP, h.1, h.2]

theorem digitP_none {i : List Char}
    (h : ∀ c, i.head? = some c → isStatsdDigit c = false) :
    digitP i = none := by
  cases i with
  | nil => rfl
  | cons c cs => simp [digitP, List.takeWhile_cons, h c rfl]

theorem dropWhile_ne_dot {b : List Char} (hc : '.' ∈ b) :
    ∃ bb, b.dropWhile (fun c => c != '.') = '.' :: bb := by
  induction b with
  | nil => simp at hc
  | cons c cs ih =>
    by_cases h : c = '.'
    · subst h
      exact ⟨cs, by simp [List.dropWhile_cons]⟩
    · have hmem : '.' ∈ cs := by
        rcases List.mem_cons.mp hc with h1 | h1
        · exact absurd h1.symm h
        · exact h1
      obtain ⟨bb, hbb⟩ := ih hmem
      refine ⟨bb, ?_⟩
      have hne : (c != '.') = true := by simp [bne, h]
      simp [List.dropWhile_cons, hne, hbb]

theorem numBody_decomp {l : List Char} (h : numBody l = true) :
    (l ≠ [] ∧ l.all isStatsdDigit = true ∧ ('.' ∈ l → False)) ∨
    (∃ a b, l = a ++ '.' :: b ∧ a.all isStatsdDigit = true ∧
      b.all isStatsdDigit = true ∧ (a ≠ [] ∨ b ≠ [])) := by
  by_cases hc : '.' ∈ l
  · right
    have hc' : l.contains '.' = true := List.elem_eq_true_of_mem hc
    obtain ⟨bb, hbb⟩ := dropWhile_ne_dot hc
    rw [numBody, if_pos hc'] at h
    simp only [hbb, List.tail_cons, Bool.and_eq_true, Bool.or_eq_true,
      Bool.not_eq_true', List.isEmpty_eq_false] at h
    refine ⟨l.takeWhile (fun c => c != '.'), bb, ?_, h.1.1, h.1.2, ?_⟩
    · conv_lhs => rw [← List.takeWhile_append_dropWhile (p := fun c => c != '.') (l := l)]
      rw [hbb]
    · exact h.2
  · left
    have hc' : l.contains '.' = false := by
      rcases hcc : l.contains '.' with _ | _
      · rfl
      · exact absurd (List.mem_of_elem_eq_true hcc) hc
    rw [numBody, if_neg (fun hcc => hc (List.mem_of_elem_eq_true hcc))] at h
    simp only [Bool.and_eq_true, Bool.not_eq_true', List.isEmpty_eq_false] at h
    exact ⟨h.1, h.2, hc⟩

theorem numBody_ne_nil {l : List Char} (h : numBody l = true) : l ≠ [] := by
  rcases numBody_decomp h with ⟨hne, -, -⟩ | ⟨a, b, rfl, -, -, -⟩
  · exact hne
  · simp

theorem numBody_head {l : List Char} (h : numBody l = true) :
    ∀ c, l.head? = some c → isStatsdDigit c = true ∨ c = '.' := by
  intro c hc
  rcases numBody_decomp h with ⟨hne, hall, -⟩ | ⟨a, b, hl, ha, -, -⟩
  · cases l with
    | nil => exact absurd rfl hne
    | cons x xs =>
      cases hc
      simp only [List.all_cons, Bool.and_eq_true] at hall
      exact Or.inl hall.1
  · cases a with
    | nil =>
      rw [hl] at hc
      cases hc
      exact Or.inr rfl
    | cons x xs =>
      rw [hl] at hc
      cases hc
      simp only [List.all_cons, Bool.and_eq_true] at ha
      exact Or.inl ha.1

theorem minus_beq_false_of_digit {c : Char} (h : isStatsdDigit c = true) :
    ('-' == c) = false := by
  rw [beq_eq_false_iff_ne]
  intro he
  rw [← he] at h
  exact absurd h (by decide)

theorem bodyP_append {b rest : List Char} (hb : numBody b = true)
    (hstop : ∀ c, rest.head? = some c → isStatsdDigit c = false ∧ c ≠ '.') :
    altP intFracP (altP fracOnlyP digitP) (b ++ rest) = some (rest, b) := by
  have hdigrest : ∀ c, rest.head? = some c → isStatsdDigit c = false :=
    fun c hc => (hstop c hc).1
  have htagdot : tagP ['.'] rest = none := by
    cases rest with
    | nil => rfl
    | cons c cs =>
      have hne : ('.' == c) = false := by
        rw [beq_eq_false_iff_ne]
        exact Ne.symm (hstop c rfl).2
      exact tagP_cons_ne hne _ _
  rcases numBody_decomp hb with ⟨hne, hall, -⟩ | ⟨a, bb, rfl, ha, hbb, hor⟩
  · have hd : digitP (b ++ rest) = some (rest, b) := digitP_append hne hall hdigrest
    have hifp : intFracP (b ++ rest) = none := by
      simp [intFracP, seqP, hd, htagdot]
    have hfop : fracOnlyP (b ++ rest) = none := by
      simp [fracOnlyP, seqP, optP, hd, htagdot]
    simp [altP, hifp, hfop, hd]
  · simp only [List.append_assoc, List.cons_append]
    by_cases hane : a = []
    · subst hane
      have hbbne : bb ≠ [] := by
        rcases hor with h1 | h1
        · exact absurd rfl h1
        · exact h1
      simp only [List.nil_append]
      have hd1 : digitP ('.' :: (bb ++ rest)) = none := by
        apply digitP_none
        intro c hc
        cases hc
        decide
      have hifp : intFracP ('.' :: (bb ++ rest)) = none := by
        simp [intFracP, seqP, hd1]
      have htag : tagP ['.'] ('.' :: (bb ++ rest)) = some (bb ++ rest, ()) := by
        simpa using tagP_self_append ['.'] (bb ++ rest)
      have hd2 : digitP (bb ++ rest) = some (rest, bb) := digitP_append hbbne hbb hdigrest
      have hfop : fracOnlyP ('.' :: (bb ++ rest)) = some (rest, '.' :: bb) := by
        simp [fracOnlyP, seqP, optP, pureP, hd1, htag, hd2]
      simp [altP, hifp, hfop]
    · have hd1 : digitP (a ++ '.' :: (bb ++ rest)) = some ('.' :: (bb ++ rest), a) := by
        apply digitP_append hane ha
        intro c hc
        cases hc
        decide
      have htag : tagP ['.'] ('.' :: (bb ++ rest)) = some (bb ++ rest, ()) := by
        simpa using tagP_self_append ['.'] (bb ++ rest)
      by_cases hbbe : bb = []
      · subst hbbe
        simp only [List.nil_append] at hd1 htag ⊢
        have hd2 : digitP rest = none := digitP_none hdigrest
        have hifp : intFracP (a ++ '.' :: rest) = some (rest, a ++ ['.']) := by
          simp [intFracP, seqP, optP, pureP, hd1, htag, hd2]
        simp [altP, hifp]
      · have hd2 : digitP (bb ++ rest) = some (rest, bb) := digitP_append hbbe hbb hdigrest
        have hifp : intFracP (a ++ '.' :: (bb ++ rest)) = some (rest, a ++ '.' :: bb) := by
          simp [intFracP, seqP, optP, pureP, hd1, htag, hd2]
        simp [altP, hifp]

theorem doubleP_append {v rest : List Char} (hv : numeral v = true)
    (hstop : ∀ c, rest.head? = some c → isStatsdDigit c = false ∧ c ≠ '.') :
    doubleP (v ++ rest) = some (rest, v) := by
  cases v with
  | nil => simp [numeral] at hv
  | cons c v' =>
    by_cases hcm : c = '-'
    · subst hcm
      have hb : numBody v' = true := by
        simp only [numeral] at hv
        rwa [if_pos (by simp)] at hv
      have htag : tagP ['-'] ('-' :: (v' ++ rest)) = some (v' ++ rest, ()) := by
        simpa using tagP_self_append ['-'] (v' ++ rest)
      have hbody := bodyP_append hb hstop
      simp [doubleP, seqP, optP, pureP, List.cons_append, htag, hbody]
    · have hb : numBody (c :: v') = true := by
        simp only [numeral] at hv
        rwa [if_neg (by simp [hcm])] at hv
      have htag : tagP ['-'] ((c :: v') ++ rest) = none := by
        rcases numBody_head hb c rfl with hd | hd
        · exact tagP_cons_ne (minus_beq_false_of_digit hd) _ _
        · subst hd
          exact tagP_cons_ne (by decide) _ _
      have hbody := bodyP_append hb hstop
      simp only [List.cons_append] at htag hbody ⊢
      simp [doubleP, seqP, optP, pureP, htag, hbody]

theorem headParse (n v rest' : List Char) (k : List Char → List Char → StatsdP StatsdMetric)
    (hn : n.all isNameChar = true) (hv : numeral v = true)
    (hpipe : rest'.head? = some '|') :
    seqP metricNameP (fun name =>
      seqP (tagP [':']) fun _ =>
      seqP doubleP fun value => k name value) (n ++ ':' :: (v ++ rest'))
      = k n v rest' := by
  have h1 : metricNameP (n ++ ':' :: (v ++ rest')) = some (':' :: (v ++ rest'), n) := by
    apply metricNameP_append hn
    intro c hc
    cases hc
    decide
  have h2 : tagP [':'] (':' :: (v ++ rest')) = some (v ++ rest', ()) := by
    simpa using tagP_self_append [':'] (v ++ rest')
  have h3 : doubleP (v ++ rest') = some (rest', v) := by
    apply doubleP_append hv
    intro c hc
    rw [hpipe] at hc
    cases hc
    exact ⟨by decide, by decide⟩
  simp [seqP, h1, h2, h3]

theorem counterP_append_norate {n v rest : List Char}
    (hn : n.all isNameChar = true) (hv : numeral v = true)
    (hrest : rest.head? = none ∨ rest.head? = some '\n') :
    counterP (n ++ ':' :: (v ++ '|' :: 'c' :: rest)) =
      some (rest, StatsdMetric.counter n v none) := by
  unfold counterP
  rw [headParse n v ('|' :: 'c' :: rest) _ hn hv rfl]
  have htag : tagP ['|', 'c'] ('|' :: 'c' :: rest) = some (rest, ()) := by
    simpa using tagP_self_append ['|', 'c'] rest
  have hsr : sampleRateP rest = none := by
    rcases hrest with h1 | h1
    · cases rest with
      | nil => rfl
      | cons c cs => simp at h1
    · cases rest with
      | nil => simp at h1
      | cons c cs =>
        have : c = '\n' := by
          have := h1
          simp only [List.head?_cons, Option.some.injEq] at this
          exact this
        subst this
        have htg : tagP ['|', '@'] ('\n' :: cs) = none := tagP_cons_ne (by decide) _ _
        simp [sampleRateP, seqP, htg]
  simp [seqP, optP, pureP, htag, hsr]

theorem counterP_append_rate {n v s rest : List Char}
    (hn : n.all isNameChar = true) (hv : numeral v = true) (hs : numeral s = true)
    (hrest : rest.head? = none ∨ rest.head? = some '\n') :
    counterP (n ++ ':' :: (v ++ '|' :: 'c' :: '|' :: '@' :: (s ++ rest))) =
      some (rest, StatsdMetric.counter n v none) := by
  unfold counterP
  rw [headParse n v ('|' :: 'c' :: '|' :: '@' :: (s ++ rest)) _ hn hv rfl]
  have htag : tagP ['|', 'c'] ('|' :: 'c' :: '|' :: '@' :: (s ++ rest)) =
      some ('|' :: '@' :: (s ++ rest), ()) := by
    simpa using tagP_self_append ['|', 'c'] ('|' :: '@' :: (s ++ rest))
  have hsr : sampleRateP ('|' :: '@' :: (s ++ rest)) = some (rest, s) := by
    have htg : tagP ['|', '@'] ('|' :: '@' :: (s ++ rest)) = some (s ++ rest, ()) := by
      simpa using tagP_self_append ['|', '@'] (s ++ rest)
    have hd : doubleP (s ++ rest) = some (rest, s) := by
      apply doubleP_append hs
      intro c hc
      rcases hrest with h1 | h1
      · rw [h1] at hc
        cases hc
      · rw [h1] at hc
        cases hc
        exact ⟨by decide, by decide⟩
    simp [sampleRateP, seqP, htg, hd]
  simp [seqP, optP, pureP, htag, hsr]

theorem counterP_fail_of_snd {n v : List Char} (d : Char) (t : List Char)
    (hn : n.all isNameChar = true) (hv : numeral v = true)
    (hd : ('c' == d) = false) :
    counterP (n ++ ':' :: (v ++ '|' :: d :: t)) = none := by
  unfold counterP
  rw [headParse n v ('|' :: d :: t) _ hn hv rfl]
  have htag : tagP ['|', 'c'] ('|' :: d :: t) = none := tagP2_snd_ne hd t
  simp [seqP, htag]

theorem gaugeP_fail_of_snd {n v : List Char} (d : Char) (t : List Char)
    (hn : n.all isNameChar = true) (hv : numeral v = true)
    (hd : ('g' == d) = false) :
    gaugeP (n ++ ':' :: (v ++ '|' :: d :: t)) = none := by
  unfold gaugeP
  rw [headParse n v ('|' :: d :: t) _ hn hv rfl]
  have htag : tagP ['|', 'g'] ('|' :: d :: t) = none := tagP2_snd_ne hd t
  simp [seqP, htag]

theorem gaugeP_append {n v : List Char} (rest : List Char)
    (hn : n.all isNameChar = true) (hv : numeral v = true) :
    gaugeP (n ++ ':' :: (v ++ '|' :: 'g' :: rest)) =
      some (rest, StatsdMetric.gauge n v) := by
  unfold gaugeP
  rw [headParse n v ('|' :: 'g' :: rest) _ hn hv rfl]
  have htag : tagP ['|', 'g'] ('|' :: 'g' :: rest) = some (rest, ()) := by
    simpa using tagP_self_append ['|', 'g'] rest
  simp [seqP, pureP, htag]

theorem timerP_append {n v : List Char} (rest : List Char)
    (hn : n.all isNameChar = true) (hv : numeral v = true) :
    timerP (n ++ ':' :: (v ++ '|' :: 'm' :: 's' :: rest)) =
      some (rest, StatsdMetric.timer n v none) := by
  unfold timerP
  rw [headParse n v ('|' :: 'm' :: 's' :: rest) _ hn hv rfl]
  have htag : tagP ['|', 'm', 's'] ('|' :: 'm' :: 's' :: rest) = some (rest, ()) := by
    simpa using tagP_self_append ['|', 'm', 's'] rest
  simp [seqP, pureP, htag]

theorem lineP_render {l : Line} {rest : List Char} (hl : wfLine l = true)
    (hrest : rest.head? = none ∨ rest.head? = some '\n') :
    lineP (l.render ++ rest) = some (rest, l.metric) := by
  cases l with
  | counter n v r =>
    cases r with
    | none =>
      simp only [wfLine, Bool.and_eq_true] at hl
      have hc := counterP_append_norate hl.1.1 hl.1.2 hrest
      simp only [Line.render, Line.metric, List.append_assoc, List.cons_append,
        List.nil_append]
      simp [lineP, altP, hc]
    | some s =>
      simp only [wfLine, Bool.and_eq_true] at hl
      have hc := counterP_append_rate hl.1.1 hl.1.2 hl.2 hrest
      simp only [Line.render, Line.metric, List.append_assoc, List.cons_append,
        List.nil_append]
      simp [lineP, altP, hc]
  | gauge n v =>
    simp only [wfLine, Bool.and_eq_true] at hl
    have hcf := counterP_fail_of_snd 'g' rest hl.1 hl.2 (by decide)
    have hg := gaugeP_append rest hl.1 hl.2
    simp only [Line.render, Line.metric, List.append_assoc, List.cons_append,
      List.nil_append]
    simp [lineP, altP, hcf, hg]
  | timer n v =>
    simp only [wfLine, Bool.and_eq_true] at hl
    have hcf := counterP_fail_of_snd 'm' ('s' :: rest) hl.1 hl.2 (by decide)
    have hgf := gaugeP_fail_of_snd 'm' ('s' :: rest) hl.1 hl.2 (by decide)
    have ht := timerP_append rest hl.1 hl.2
    simp only [Line.render, Line.metric, List.append_assoc, List.cons_append,
      List.nil_append]
    simp [lineP, altP, hcf, hgf, ht]

theorem metricsLoop_stop {i : List Char} (h : tagP ['\n'] i = none)
    (fuel : Nat) (acc : List StatsdMetric) :
    metricsLoop fuel acc i = (i, acc) := by
  cases fuel with
  | zero => rfl
  | succ f => simp [metricsLoop, h]

theorem renderSeq_length_ge (ls : List Line) (tail : List Char) :
    ls.length ≤ (renderSeq ls tail).length := by
  induction ls with
  | nil => simp [renderSeq]
  | cons l ls ih =>
    simp only [renderSeq, List.length_cons, List.length_append]
    omega

theorem metricsLoop_renders (tail : List Char)
    (hstop : tail = [] ∨ ∃ g, tail = '\n' :: g ∧ lineP g = none) :
    ∀ (lines : List Line), (∀ l ∈ lines, wfLine l = true) →
      ∀ (fuel : Nat) (acc : List StatsdMetric), lines.length ≤ fuel →
        metricsLoop fuel acc (renderSeq lines tail) =
          (tail, acc ++ lines.map Line.metric) := by
  intro lines
  induction lines with
  | nil =>
    intro _ fuel acc _
    simp only [renderSeq, List.map_nil, List.append_nil]
    rcases hstop with rfl | ⟨g, rfl, hg⟩
    · exact metricsLoop_stop (by rfl) fuel acc
    · cases fuel with
      | zero => rfl
      | succ f =>
        have htg : tagP ['\n'] ('\n' :: g) = some (g, ()) := by
          simpa using tagP_self_append ['\n'] g
        simp [metricsLoop, htg, hg]
  | cons l ls ih =>
    intro hwf fuel acc hfuel
    cases fuel with
    | zero => simp at hfuel
    | succ f =>
      have hwl : wfLine l = true := hwf l (List.mem_cons_self _ _)
      have hws : ∀ x ∈ ls, wfLine x = true := fun x hx => hwf x (List.mem_cons_of_mem _ hx)
      have hrest : (renderSeq ls tail).head? = none ∨
          (renderSeq ls tail).head? = some '\n' := by
        cases ls with
        | nil =>
          rcases hstop with rfl | ⟨g, rfl, -⟩
          · exact Or.inl rfl
          · exact Or.inr rfl
        | cons l2 ls2 => exact Or.inr rfl
      have hline := lineP_render hwl hrest
      have htg : tagP ['\n'] ('\n' :: (l.render ++ renderSeq ls tail)) =
          some (l.render ++ renderSeq ls tail, ()) := by
        simpa using tagP_self_append ['\n'] (l.render ++ renderSeq ls tail)
      have hf2 : ls.length ≤ f := by
        simp only [List.length_cons] at hfuel
        omega
      have hrec := ih hws f (acc ++ [l.metric]) hf2
      show metricsLoop (f + 1) acc ('\n' :: (l.render ++ renderSeq ls tail)) = _
      rw [metricsLoop, htg]
      simp only [hline, hrec, List.map_cons]
      simp [List.append_assoc]

/-- Counterexample to C9: in the buffer "a:1|g|@0.5\nb:2|c" both lines are
well-formed per the claimed grammar (the gauge line carries a sample-rate
suffix), yet parse_metrics does not return both metrics in order: the gauge
parser never consumes a sample rate, so list parsing stops there and the
second line is silently discarded. -/
theorem parse_metrics_gauge_rate_drops_rest :
    parse_metrics (String.toList "a:1|g|@0.5\nb:2|c") =
        Except.ok [StatsdMetric.gauge ['a'] ['1']] ∧
      [StatsdMetric.gauge ['a'] ['1']] ≠
        [StatsdMetric.gauge ['a'] ['1'],
          StatsdMetric.counter ['b'] ['2'] none] := by
  exact ⟨rfl, by decide⟩

/-- C9 (amended): for every well-formed line name:value|type of each type c,
g, ms — a sample-rate suffix |@rate allowed on counter lines, where it is
parsed and discarded — parse_metrics returns Ok with the corresponding typed
metric, and every newline-separated sequence of such lines yields Ok with all
of them in order (part 1); a malformed trailing line is dropped without
aborting: the well-formed lines before it still parse and are returned
(part 2); on a gauge or timer line a sample-rate suffix and everything after
it on the buffer are ignored, the line's own metric still being returned
(parts 3 and 4). -/
theorem parse_metrics_wf_lines :
    (∀ (first : Line) (lines : List Line),
      wfLine first = true → (∀ l ∈ lines, wfLine l = true) →
      parse_metrics (first.render ++ renderSeq lines []) =
        Except.ok (first.metric :: lines.map Line.metric)) ∧
    (∀ (first : Line) (lines : List Line) (g : List Char),
      wfLine first = true → (∀ l ∈ lines, wfLine l = true) → lineP g = none →
      parse_metrics (first.render ++ renderSeq lines ('\n' :: g)) =
        Except.ok (first.metric :: lines.map Line.metric)) ∧
    (∀ n v s : List Char, n.all isNameChar = true → numeral v = true →
      parse_metrics ((Line.gauge n v).render ++ '|' :: '@' :: s) =
        Except.ok [StatsdMetric.gauge n v]) ∧
    (∀ n v s : List Char, n.all isNameChar = true → numeral v = true →
      parse_metrics ((Line.timer n v).render ++ '|' :: '@' :: s) =
        Except.ok [StatsdMetric.timer n v none]) := by
  have main : ∀ (first : Line) (lines : List Line) (tail : List Char),
      (tail = [] ∨ ∃ g, tail = '\n' :: g ∧ lineP g = none) →
      wfLine first = true → (∀ l ∈ lines, wfLine l = true) →
      parse_metrics (first.render ++ renderSeq lines tail) =
        Except.ok (first.metric :: lines.map Line.metric) := by
    intro first lines tail hstop h1 h2
    have hrest : (renderSeq lines tail).head? = none ∨
        (renderSeq lines tail).head? = some '\n' := by
      cases lines with
      | nil =>
        rcases hstop with rfl | ⟨g, rfl, -⟩
        · exact Or.inl rfl
        · exact Or.inr rfl
      | cons l2 ls2 => exact Or.inr rfl
    have hline := lineP_render h1 hrest
    have hlen : lines.length ≤ (first.render ++ renderSeq lines tail).length := by
      have hge := renderSeq_length_ge lines tail
      rw [List.length_append]
      omega
    have hloop := metricsLoop_renders tail hstop lines h2
      ((first.render ++ renderSeq lines tail).length) [first.metric] hlen
    simp only [parse_metrics, metricsP, hline, hloop]
    simp
  refine ⟨fun first lines h1 h2 => main first lines [] (Or.inl rfl) h1 h2,
    fun first lines g h1 h2 hg => main first lines ('\n' :: g) (Or.inr ⟨g, rfl, hg⟩) h1 h2,
    ?_, ?_⟩
  · intro n v s hn hv
    have hcf := counterP_fail_of_snd 'g' ('|' :: '@' :: s) hn hv (by decide)
    have hg := gaugeP_append ('|' :: '@' :: s) hn hv
    have hstop : tagP ['\n'] ('|' :: '@' :: s) = none := tagP_cons_ne (by decide) _ _
    simp only [Line.render, List.append_assoc, List.cons_append, List.nil_append]
    simp [parse_metrics, metricsP, lineP, altP, hcf, hg, metricsLoop_stop hstop]
  · intro n v s hn hv
    have hcf := counterP_fail_of_snd 'm' ('s' :: '|' :: '@' :: s) hn hv (by decide)
    have hgf := gaugeP_fail_of_snd 'm' ('s' :: '|' :: '@' :: s) hn hv (by decide)
    have ht := timerP_append ('|' :: '@' :: s) hn hv
    have hstop : tagP ['\n'] ('|' :: '@' :: s) = none := tagP_cons_ne (by decide) _ _
    simp only [Line.render, List.append_assoc, List.cons_append, List.nil_append]
    simp [parse_metrics, metricsP, lineP, altP, hcf, hgf, ht, metricsLoop_stop hstop]

/-- Witness for the amended C9, at the repository's own test vector
"foo:1|g\nbar:2|c|@3\nbaz:4|ms", at that vector followed by a malformed line
"###", and at gauge and timer lines with an ignored sample-rate suffix. -/
theorem parse_metrics_wf_lines_witness :
    parse_metrics ((Line.gauge (String.toList "foo") (String.toList "1")).render ++
        renderSeq [Line.counter (String.toList "bar") (String.toList "2")
            (some (String.toList "3")),
          Line.timer (String.toList "baz") (String.toList "4")] []) =
      Except.ok [StatsdMetric.gauge (String.toList "foo") (String.toList "1"),
        StatsdMetric.counter (String.toList "bar") (String.toList "2") none,
        StatsdMetric.timer (String.toList "baz") (String.toList "4") none] ∧
    parse_metrics ((Line.gauge (String.toList "foo") (String.toList "1")).render ++
        renderSeq [Line.counter (String.toList "bar") (String.toList "2")
            (some (String.toList "3")),
          Line.timer (String.toList "baz") (String.toList "4")]
          ('\n' :: String.toList "###")) =
      Except.ok [StatsdMetric.gauge (String.toList "foo") (String.toList "1"),
        StatsdMetric.counter (String.toList "bar") (String.toList "2") none,
        StatsdMetric.timer (String.toList "baz") (String.toList "4") none] ∧
    parse_metrics ((Line.gauge ['a'] ['1']).render ++ '|' :: '@' :: String.toList "0.5") =
      Except.ok [StatsdMetric.gauge ['a'] ['1']] ∧
    parse_metrics ((Line.timer ['t'] ['2']).render ++ '|' :: '@' :: String.toList "0.5") =
      Except.ok [StatsdMetric.timer ['t'] ['2'] none] := by
  refine ⟨?_, ?_, ?_, ?_⟩
  · exact parse_metrics_wf_lines.1
      (Line.gauge (String.toList "foo") (String.toList "1"))
      [Line.counter (String.toList "bar") (String.toList "2") (some (String.toList "3")),
        Line.timer (String.toList "baz") (String.toList "4")]
      (by decide) (by decide)
  · exact parse_metrics_wf_lines.2.1
      (Line.gauge (String.toList "foo") (String.toList "1"))
      [Line.counter (String.toList "bar") (String.toList "2") (some (String.toList "3")),
        Line.timer (String.toList "baz") (String.toList "4")]
      (String.toList "###") (by decide) (by decide) (by decide)
  · exact parse_metrics_wf_lines.2.2.1 ['a'] ['1']
      (String.toList "0.5") (by decide) (by decide)
  · exact parse_metrics_wf_lines.2.2.2 ['t'] ['2']
      (String.toList "0.5") (by decide) (by decide)

end Metriqs
